import Mathlib

/-!
Verification of the kerchunk CLI pipeline (src/kerchunk/cli/chunk_nc.py).

The development shallowly embeds the `NetcdfChunker` class: POSIX pure-path
arithmetic (the relevant fragment of pathlib: parsing, joining, parent,
with_suffix), URI resolution (`get_uri_list`), the per-source indexing loop
(`scan_them_all`) as a state-passing fold with an explicit environment giving
each source's scan outcome, and consolidation (`consolidate`) with the external
MultiZarrToZarr collaborator as an opaque function parameter.
-/

namespace ChunkNc

/-- A PurePosixPath: an absolute flag plus the list of path components.
pathlib collapses duplicate slashes and single-dot components at parse time. -/
structure PurePath where
  absolute : Bool
  parts : List String
deriving DecidableEq, Repr

/-- Split a character list on slashes (keeping empty segments; the parser
filters them, as pathlib does). -/
def splitSlashAux : List Char → List Char → List (List Char)
  | [], acc => [acc.reverse]
  | c :: rest, acc =>
    if c = '/' then acc.reverse :: splitSlashAux rest []
    else splitSlashAux rest (c :: acc)

/-- Parse a string into a PurePosixPath: absolute iff it starts with a slash;
components are the slash-separated segments with empty and single-dot
segments dropped. -/
def parsePath (s : String) : PurePath :=
  { absolute := s.toList.head? == some '/'
    parts := ((splitSlashAux s.toList []).map String.mk).filter
      (fun p => !(p == "") && !(p == ".")) }

/-- Render a component list with slash separators. -/
def renderParts : List String → List Char
  | [] => []
  | [s] => s.toList
  | s :: rest => s.toList ++ '/' :: renderParts rest

/-- PurePosixPath.as_posix: "/"-prefixed for absolute paths, "." for the empty
relative path. -/
def PurePath.asPosix (p : PurePath) : String :=
  if p.absolute then String.mk ('/' :: renderParts p.parts)
  else if p.parts.isEmpty then "." else String.mk (renderParts p.parts)

/-- The pathlib `/` operator with a string on the right: if the right operand
parses as an absolute path it replaces the whole left path, otherwise its
components are appended. -/
def PurePath.join (p : PurePath) (s : String) : PurePath :=
  if (parsePath s).absolute then parsePath s
  else { absolute := p.absolute, parts := p.parts ++ (parsePath s).parts }

/-- PurePosixPath.parent: drop the last component. -/
def PurePath.parent (p : PurePath) : PurePath :=
  { p with parts := p.parts.dropLast }

/-- PurePosixPath.name: the last component, or the empty string. -/
def PurePath.name (p : PurePath) : String :=
  p.parts.getLast?.getD ""

/-- Length of the pathlib suffix of a file name: the segment from the last
dot, provided that dot is neither the first nor the last character
(CPython's PurePath.suffix). -/
def suffix_len (name : String) : Nat :=
  match (((List.range name.toList.length).filter
      (fun i => name.toList.getD i ' ' == '.'))).getLast? with
  | some i => if 0 < i && i + 1 < name.toList.length then name.toList.length - i else 0
  | none => 0

/-- Path(name).with_suffix(".json").name: strip the pathlib suffix and append
".json". -/
def with_suffix_json (name : String) : String :=
  String.mk (name.toList.take (name.toList.length - suffix_len name)
    ++ ['.', 'j', 's', 'o', 'n'])

/-- Configuration of the NetcdfChunker class (its class-level fields). The
fsspec storage options dict is modelled as an association list. -/
structure NetcdfChunker where
  dataset_name : String := "mydataset"
  input : List String
  input_fs_args : List (String × String) := []
  json_dir : String := "json"
  zarr_output : String := "zarr"
  force_scan : Bool := false
deriving DecidableEq, Repr

/-- json_dataset_dir as a path value: self.json_dir / self.dataset_name. -/
def json_dataset_dirP (cfg : NetcdfChunker) : PurePath :=
  (parsePath cfg.json_dir).join cfg.dataset_name

/-- json_dataset_dir rendered as a string (the directory the property creates). -/
def json_dataset_dir (cfg : NetcdfChunker) : String :=
  (json_dataset_dirP cfg).asPosix

/-- The per-source artifact path, exactly as scan_them_all derives it:
self.json_dataset_dir / Path(fp).parent.as_posix()
  / Path(fp).with_suffix(".json").name. -/
def fp_jsonP (cfg : NetcdfChunker) (fp : String) : PurePath :=
  ((json_dataset_dirP cfg).join ((parsePath fp).parent.asPosix)).join
    (with_suffix_json ((parsePath fp).name))

/-- The artifact path rendered as a string. -/
def fp_json (cfg : NetcdfChunker) (fp : String) : String :=
  (fp_jsonP cfg fp).asPosix

/-- fp_json.parent, the directory scan_them_all creates before the cache check. -/
def parent_dir (cfg : NetcdfChunker) (fp : String) : String :=
  (fp_jsonP cfg fp).parent.asPosix

/-- The consolidated output path: self.zarr_output / (dataset_name ++ ".zarr"). -/
def zarr_pathP (cfg : NetcdfChunker) : PurePath :=
  (parsePath cfg.zarr_output).join (cfg.dataset_name ++ ".zarr")

/-!  URI resolution (get_uri_list).  The storage backend is an environment
parameter: a glob function taking a pattern and the storage options it was
constructed with.  url_to_fs(fs_glob) receives no storage options, so
resolution always queries the backend with the empty option list.  -/

/-- Lexicographic comparison of character lists by code point, defined by
structural recursion so that it evaluates by kernel reduction. -/
def lexLt : List Char → List Char → Bool
  | [], [] => false
  | [], _ :: _ => true
  | _ :: _, [] => false
  | a :: as, b :: bs => if a = b then lexLt as bs else decide (a < b)

theorem lexLt_iff_lex : ∀ as bs : List Char,
    lexLt as bs = true ↔ List.Lex (· < ·) as bs := by
  intro as
  induction as with
  | nil =>
    intro bs
    cases bs with
    | nil => simp [lexLt]
    | cons b bs => simp [lexLt]; exact List.Lex.nil
  | cons a as ih =>
    intro bs
    cases bs with
    | nil =>
      simp only [lexLt, Bool.false_eq_true, false_iff]
      intro h; cases h
    | cons b bs =>
      by_cases hab : a = b
      · subst hab
        have he : lexLt (a :: as) (a :: bs) = lexLt as bs := by
          simp [lexLt]
        rw [he, ih bs]
        constructor
        · exact fun h => List.Lex.cons h
        · intro h
          cases h with
          | cons h => exact h
          | rel h => exact absurd h (lt_irrefl a)
      · have he : lexLt (a :: as) (b :: bs) = decide (a < b) := by
          simp [lexLt, hab]
        rw [he, decide_eq_true_eq]
        constructor
        · exact fun h => List.Lex.rel h
        · intro h
          cases h with
          | cons h => exact absurd rfl hab
          | rel h => exact h

theorem lexLt_iff_lt (as bs : List Char) : lexLt as bs = true ↔ as < bs := by
  rw [lexLt_iff_lex]
  exact Iff.rfl

/-- Lexicographic string order used for sorting, stated so that its
decidability instance evaluates by kernel reduction. Equivalent to the
linear order on String (uriLe_iff_le). -/
def uriLe (a b : String) : Prop := a = b ∨ lexLt a.toList b.toList = true

instance : DecidableRel uriLe := fun a b =>
  inferInstanceAs (Decidable (a = b ∨ lexLt a.toList b.toList = true))

theorem uriLe_iff_le (a b : String) : uriLe a b ↔ a ≤ b := by
  rw [le_iff_lt_or_eq, uriLe, lexLt_iff_lt, ← String.lt_iff_toList_lt, or_comm]

instance : IsTotal String uriLe :=
  ⟨fun a b => by rw [uriLe_iff_le, uriLe_iff_le]; exact le_total a b⟩

instance : IsTrans String uriLe :=
  ⟨fun a b c hab hbc => by
    rw [uriLe_iff_le] at *
    exact le_trans hab hbc⟩

instance : IsAntisymm String uriLe :=
  ⟨fun a b hab hba => by
    rw [uriLe_iff_le] at *
    exact le_antisymm hab hba⟩

/-- The nested loop of get_uri_list: collect fs.glob(fs_glob) for each input
pattern, in order, appending. -/
def glob_all (cfg : NetcdfChunker)
    (glob : String → List (String × String) → List String) : List String :=
  cfg.input.foldl (fun acc pat => acc ++ glob pat []) []

/-- get_uri_list: sorted(list(set(collected results))). -/
def get_uri_list (cfg : NetcdfChunker)
    (glob : String → List (String × String) → List String) : List String :=
  ((glob_all cfg glob).dedup).insertionSort uriLe

/-!  The per-source indexing pass (scan_them_all).

The filesystem state is split into the artifact files (an association list
from rendered artifact path to file content), the set of directories that
have been created, the trace of source opens (URI together with the fsspec
storage options passed to fsspec.open), and the URIs whose errors were
logged by the except-OSError handler.

Each source's behaviour is an environment function giving the outcome of
opening and indexing it: the open itself may raise an I/O error
(fsspec.open(...).__enter__, outside the try block), the indexing
collaborator may raise an OSError (inside the try block), it may raise a
non-I/O error, or it may succeed with the serialized index content. -/

inductive ScanOutcome where
  | openError
  | scanOSError
  | fatal
  | ok (content : String)
deriving DecidableEq, Repr

structure ScanState where
  store : List (String × String)
  dirs : List String
  reads : List (String × List (String × String))
  errors : List String
deriving DecidableEq, Repr

/-- mkdir with exist_ok semantics: record the directory if not present. -/
def ensureDir (st : ScanState) (d : String) : ScanState :=
  if d ∈ st.dirs then st else { st with dirs := st.dirs ++ [d] }

/-- Overwrite a file: any entry at that path is replaced. -/
def setFile (s : List (String × String)) (k v : String) : List (String × String) :=
  s.filter (fun kv => !(kv.1 == k)) ++ [(k, v)]

/-- The directory creation done at the top of each loop iteration: evaluating
the json_dataset_dir property creates the dataset directory, and
fp_json.parent.mkdir(parents=True, exist_ok=True) creates the artifact's
parent. Both happen before the cache-hit check. -/
def ensured (cfg : NetcdfChunker) (st : ScanState) (fp : String) : ScanState :=
  ensureDir (ensureDir st (json_dataset_dir cfg)) (parent_dir cfg fp)

/-- State after a successful scan of fp: the source was opened with the
configured storage options and its artifact written (overwriting). -/
def afterWrite (cfg : NetcdfChunker) (st : ScanState) (fp : String) (c : String) :
    ScanState :=
  { ensured cfg st fp with
    reads := (ensured cfg st fp).reads ++ [(fp, cfg.input_fs_args)]
    store := setFile (ensured cfg st fp).store (fp_json cfg fp) c }

/-- State after an OSError inside the try block: the source was opened, the
error logged, no artifact written, and the loop continues. -/
def afterOSErr (cfg : NetcdfChunker) (st : ScanState) (fp : String) : ScanState :=
  { ensured cfg st fp with
    reads := (ensured cfg st fp).reads ++ [(fp, cfg.input_fs_args)]
    errors := (ensured cfg st fp).errors ++ [fp] }

/-- One iteration of the scan loop over source fp.  Mirrors scan_them_all:
derive fp_json (creating directories), skip if the artifact exists and
force_scan is false, otherwise open the source and index it; an error raised
outside the except-OSError handler aborts the whole run. -/
def scanStep (cfg : NetcdfChunker) (scanOf : String → ScanOutcome)
    (st : ScanState) (fp : String) : Except String ScanState :=
  if ((ensured cfg st fp).store.lookup (fp_json cfg fp)).isSome && !cfg.force_scan then
    .ok (ensured cfg st fp)
  else
    match scanOf fp with
    | .openError => .error fp
    | .fatal => .error fp
    | .scanOSError => .ok (afterOSErr cfg st fp)
    | .ok c => .ok (afterWrite cfg st fp c)

/-- The scan loop over a list of sources. -/
def scanList (cfg : NetcdfChunker) (scanOf : String → ScanOutcome) :
    ScanState → List String → Except String ScanState
  | st, [] => .ok st
  | st, fp :: rest =>
    match scanStep cfg scanOf st fp with
    | .error e => .error e
    | .ok st' => scanList cfg scanOf st' rest

/-- scan_them_all: the scan loop over the resolved URI list. -/
def scan_them_all (cfg : NetcdfChunker)
    (glob : String → List (String × String) → List String)
    (scanOf : String → ScanOutcome) (st : ScanState) : Except String ScanState :=
  scanList cfg scanOf st (get_uri_list cfg glob)

/-!  Consolidation. -/

/-- Whether a file path lies strictly under a directory (how
json_dataset_dir.glob reaches it). -/
def under_dir (dir : String) (k : String) : Bool :=
  k.toList.take (dir.toList.length + 1) == dir.toList ++ ['/']

/-- Whether a file name carries the .json extension (the *.json part of the
glob pattern). -/
def json_ext (k : String) : Bool :=
  ['.', 'j', 's', 'o', 'n'].isSuffixOf k.toList

/-- The concat_dims constant passed to MultiZarrToZarr. -/
def concat_dims : List String := ["analysis_time", "step"]

/-- json_dataset_dir.glob("**/*.json"): every artifact file under the dataset
directory, enumerated deterministically (sorted by path), paired with its
content (MultiZarrToZarr reads the listed files). -/
def list_artifacts (cfg : NetcdfChunker) (store : List (String × String)) :
    List (String × String) :=
  ((((store.map Prod.fst).filter
      (fun k => under_dir (json_dataset_dir cfg) k && json_ext k)).dedup).insertionSort
        uriLe).map
    (fun k => (k, (store.lookup k).getD ""))

/-- Result of a consolidation run: the MultiZarrToZarr invocations (artifact
list and concat dimension list per call), the output path, and the written
merged artifact. -/
structure ConsolidateResult where
  calls : List (List (String × String) × List String)
  output_path : String
  output : String
deriving DecidableEq, Repr

/-- consolidate: enumerate the dataset's artifacts, invoke MultiZarrToZarr
once on the full list with the concat_dims constant, and write the merged
result to zarr_output / (dataset_name ++ ".zarr").  The previous merged
artifact (if any) is not read: translate(filename=...) overwrites it. -/
def consolidate (cfg : NetcdfChunker)
    (mzz : List (String × String) → List String → String)
    (store : List (String × String)) (_prevOutput : Option String) :
    ConsolidateResult :=
  { calls := [(list_artifacts cfg store, concat_dims)]
    output_path := (zarr_pathP cfg).asPosix
    output := mzz (list_artifacts cfg store) concat_dims }

/-!  Basic lemmas about the state operations. -/

theorem ensureDir_store (st : ScanState) (d : String) :
    (ensureDir st d).store = st.store := by
  unfold ensureDir; split <;> rfl

theorem ensureDir_reads (st : ScanState) (d : String) :
    (ensureDir st d).reads = st.reads := by
  unfold ensureDir; split <;> rfl

theorem ensureDir_errors (st : ScanState) (d : String) :
    (ensureDir st d).errors = st.errors := by
  unfold ensureDir; split <;> rfl

theorem mem_ensureDir_self (st : ScanState) (d : String) :
    d ∈ (ensureDir st d).dirs := by
  unfold ensureDir
  split
  · assumption
  · simp

theorem mem_ensureDir_of_mem (st : ScanState) (d x : String) (h : x ∈ st.dirs) :
    x ∈ (ensureDir st d).dirs := by
  unfold ensureDir
  split
  · exact h
  · simp [h]

theorem ensureDir_of_mem (st : ScanState) (d : String) (h : d ∈ st.dirs) :
    ensureDir st d = st := by
  unfold ensureDir
  rw [if_pos h]

theorem ensured_store (cfg : NetcdfChunker) (st : ScanState) (fp : String) :
    (ensured cfg st fp).store = st.store := by
  unfold ensured
  rw [ensureDir_store, ensureDir_store]

theorem ensured_reads (cfg : NetcdfChunker) (st : ScanState) (fp : String) :
    (ensured cfg st fp).reads = st.reads := by
  unfold ensured
  rw [ensureDir_reads, ensureDir_reads]

theorem ensured_errors (cfg : NetcdfChunker) (st : ScanState) (fp : String) :
    (ensured cfg st fp).errors = st.errors := by
  unfold ensured
  rw [ensureDir_errors, ensureDir_errors]

theorem mem_ensured_jdd (cfg : NetcdfChunker) (st : ScanState) (fp : String) :
    json_dataset_dir cfg ∈ (ensured cfg st fp).dirs :=
  mem_ensureDir_of_mem _ _ _ (mem_ensureDir_self st (json_dataset_dir cfg))

theorem mem_ensured_parent (cfg : NetcdfChunker) (st : ScanState) (fp : String) :
    parent_dir cfg fp ∈ (ensured cfg st fp).dirs :=
  mem_ensureDir_self _ (parent_dir cfg fp)

theorem mem_ensured_of_mem (cfg : NetcdfChunker) (st : ScanState) (fp x : String)
    (h : x ∈ st.dirs) : x ∈ (ensured cfg st fp).dirs :=
  mem_ensureDir_of_mem _ _ _ (mem_ensureDir_of_mem _ _ _ h)

theorem ensured_of_mem (cfg : NetcdfChunker) (st : ScanState) (fp : String)
    (h1 : json_dataset_dir cfg ∈ st.dirs) (h2 : parent_dir cfg fp ∈ st.dirs) :
    ensured cfg st fp = st := by
  unfold ensured
  rw [ensureDir_of_mem st _ h1, ensureDir_of_mem st _ h2]

theorem lookup_filter_ne (s : List (String × String)) (k k' : String)
    (h : k' ≠ k) :
    (s.filter (fun kv => !(kv.1 == k))).lookup k' = s.lookup k' := by
  induction s with
  | nil => rfl
  | cons kv s ih =>
    obtain ⟨a, b⟩ := kv
    by_cases ha : a = k
    · subst ha
      have h1 : (k' == a) = false := by simp [h]
      simp [List.filter_cons, List.lookup_cons, h1, ih]
    · by_cases h2 : k' = a
      · subst h2
        simp [List.filter_cons, List.lookup_cons, ha]
      · have h3 : (k' == a) = false := by simp [h2]
        simp [List.filter_cons, List.lookup_cons, ha, h3, ih]

theorem lookup_append_of_none (l1 l2 : List (String × String)) (k : String)
    (h : l1.lookup k = none) : (l1 ++ l2).lookup k = l2.lookup k := by
  induction l1 with
  | nil => rfl
  | cons kv l1 ih =>
    obtain ⟨a, b⟩ := kv
    by_cases ha : k = a
    · subst ha
      simp [List.lookup_cons] at h
    · have h3 : (k == a) = false := by simp [ha]
      rw [List.lookup_cons, h3] at h
      simp only [List.cons_append, List.lookup_cons, h3]
      exact ih h

theorem lookup_filter_self_none (s : List (String × String)) (k : String) :
    (s.filter (fun kv => !(kv.1 == k))).lookup k = none := by
  induction s with
  | nil => rfl
  | cons kv s ih =>
    obtain ⟨a, b⟩ := kv
    by_cases ha : a = k
    · subst ha
      simp [List.filter_cons, ih]
    · have h3 : (k == a) = false := by simp [Ne.symm ha]
      simp [List.filter_cons, List.lookup_cons, ha, h3, ih]

theorem lookup_setFile_self (s : List (String × String)) (k v : String) :
    (setFile s k v).lookup k = some v := by
  unfold setFile
  rw [lookup_append_of_none _ _ _ (lookup_filter_self_none s k)]
  simp [List.lookup_cons]

theorem lookup_setFile_ne (s : List (String × String)) (k v k' : String)
    (h : k' ≠ k) : (setFile s k v).lookup k' = s.lookup k' := by
  unfold setFile
  have h3 : (k' == k) = false := by simp [h]
  induction s with
  | nil => simp [List.lookup_cons, h3]
  | cons kv s ih =>
    obtain ⟨a, b⟩ := kv
    by_cases ha : a = k
    · subst ha
      have h4 : (k' == a) = false := h3
      simp [List.filter_cons, List.lookup_cons, h4, ih]
    · by_cases h2 : k' = a
      · subst h2
        simp [List.filter_cons, List.lookup_cons, ha]
      · have h4 : (k' == a) = false := by simp [h2]
        simp [List.filter_cons, List.lookup_cons, ha, h4, ih]

theorem lookup_isSome_iff_mem (s : List (String × String)) (k : String) :
    (s.lookup k).isSome = true ↔ k ∈ s.map Prod.fst := by
  induction s with
  | nil => simp
  | cons kv s ih =>
    obtain ⟨a, b⟩ := kv
    by_cases h : k = a
    · subst h
      simp [List.lookup_cons]
    · have hk : (k == a) = false := by simp [h]
      simp only [List.lookup_cons, hk, List.map_cons, List.mem_cons]
      rw [ih]
      constructor
      · exact fun hm => Or.inr hm
      · rintro (rfl | hm)
        · exact absurd rfl h
        · exact hm

theorem lookup_mem_of_eq_some (s : List (String × String)) (k v : String)
    (h : s.lookup k = some v) : k ∈ s.map Prod.fst := by
  rw [← lookup_isSome_iff_mem, h]
  rfl

/-!  Characterization of one scan-loop iteration. -/

theorem scanStep_hit (cfg : NetcdfChunker) (scanOf : String → ScanOutcome)
    (st : ScanState) (fp : String)
    (hex : (st.store.lookup (fp_json cfg fp)).isSome = true)
    (hf : cfg.force_scan = false) :
    scanStep cfg scanOf st fp = .ok (ensured cfg st fp) := by
  unfold scanStep
  rw [if_pos]
  rw [ensured_store, hex, hf]
  rfl

theorem scanStep_miss_ok (cfg : NetcdfChunker) (scanOf : String → ScanOutcome)
    (st : ScanState) (fp : String) (c : String)
    (hmiss : ((st.store.lookup (fp_json cfg fp)).isSome && !cfg.force_scan) = false)
    (hc : scanOf fp = .ok c) :
    scanStep cfg scanOf st fp = .ok (afterWrite cfg st fp c) := by
  unfold scanStep
  rw [if_neg, hc]
  rw [ensured_store]
  simp [hmiss]

theorem scanStep_miss_osErr (cfg : NetcdfChunker) (scanOf : String → ScanOutcome)
    (st : ScanState) (fp : String)
    (hmiss : ((st.store.lookup (fp_json cfg fp)).isSome && !cfg.force_scan) = false)
    (hc : scanOf fp = .scanOSError) :
    scanStep cfg scanOf st fp = .ok (afterOSErr cfg st fp) := by
  unfold scanStep
  rw [if_neg, hc]
  rw [ensured_store]
  simp [hmiss]

theorem scanStep_miss_openErr (cfg : NetcdfChunker) (scanOf : String → ScanOutcome)
    (st : ScanState) (fp : String)
    (hmiss : ((st.store.lookup (fp_json cfg fp)).isSome && !cfg.force_scan) = false)
    (hc : scanOf fp = .openError) :
    scanStep cfg scanOf st fp = .error fp := by
  unfold scanStep
  rw [if_neg, hc]
  rw [ensured_store]
  simp [hmiss]

theorem scanStep_miss_fatal (cfg : NetcdfChunker) (scanOf : String → ScanOutcome)
    (st : ScanState) (fp : String)
    (hmiss : ((st.store.lookup (fp_json cfg fp)).isSome && !cfg.force_scan) = false)
    (hc : scanOf fp = .fatal) :
    scanStep cfg scanOf st fp = .error fp := by
  unfold scanStep
  rw [if_neg, hc]
  rw [ensured_store]
  simp [hmiss]

/-- Whatever a successful step does: reads, dirs and artifact presence only
grow, and any new read carries the configured storage options. -/
theorem scanStep_mono (cfg : NetcdfChunker) (scanOf : String → ScanOutcome)
    (st : ScanState) (fp : String) (st1 : ScanState)
    (h : scanStep cfg scanOf st fp = .ok st1) :
    (∀ r, r ∈ st.reads → r ∈ st1.reads) ∧
    (∀ d, d ∈ st.dirs → d ∈ st1.dirs) ∧
    (∀ k, (st.store.lookup k).isSome = true → (st1.store.lookup k).isSome = true) ∧
    (∀ r, r ∈ st1.reads → r ∈ st.reads ∨ r.2 = cfg.input_fs_args) := by
  unfold scanStep at h
  split at h
  · cases h
    refine ⟨?_, ?_, ?_, ?_⟩
    · intro r hr; rw [ensured_reads]; exact hr
    · intro d hd; exact mem_ensured_of_mem cfg st fp d hd
    · intro k hk; rw [ensured_store]; exact hk
    · intro r hr; rw [ensured_reads] at hr; exact Or.inl hr
  · split at h
    · cases h
    · cases h
    · cases h
      refine ⟨?_, ?_, ?_, ?_⟩
      · intro r hr
        simp only [afterOSErr, ensured_reads, List.mem_append]
        exact Or.inl hr
      · intro d hd
        exact mem_ensured_of_mem cfg st fp d hd
      · intro k hk
        simpa [afterOSErr, ensured_store] using hk
      · intro r hr
        simp only [afterOSErr, ensured_reads, List.mem_append,
          List.mem_singleton] at hr
        rcases hr with hr | rfl
        · exact Or.inl hr
        · exact Or.inr rfl
    · cases h
      refine ⟨?_, ?_, ?_, ?_⟩
      · intro r hr
        simp only [afterWrite, ensured_reads, List.mem_append]
        exact Or.inl hr
      · intro d hd
        exact mem_ensured_of_mem cfg st fp d hd
      · intro k hk
        simp only [afterWrite, ensured_store]
        by_cases hk2 : k = fp_json cfg fp
        · subst hk2
          rw [lookup_setFile_self]
          rfl
        · rw [lookup_setFile_ne _ _ _ _ hk2]
          exact hk
      · intro r hr
        simp only [afterWrite, ensured_reads, List.mem_append,
          List.mem_singleton] at hr
        rcases hr with hr | rfl
        · exact Or.inl hr
        · exact Or.inr rfl

/-!  Induction lemmas about the scan loop. -/

theorem scanList_mono (cfg : NetcdfChunker) (scanOf : String → ScanOutcome) :
    ∀ (l : List String) (st st' : ScanState),
      scanList cfg scanOf st l = .ok st' →
      (∀ r, r ∈ st.reads → r ∈ st'.reads) ∧
      (∀ d, d ∈ st.dirs → d ∈ st'.dirs) ∧
      (∀ k, (st.store.lookup k).isSome = true →
        (st'.store.lookup k).isSome = true) ∧
      (∀ r, r ∈ st'.reads → r ∈ st.reads ∨ r.2 = cfg.input_fs_args) := by
  intro l
  induction l with
  | nil =>
    intro st st' h
    cases h
    exact ⟨fun _ h => h, fun _ h => h, fun _ h => h, fun r h => Or.inl h⟩
  | cons fp rest ih =>
    intro st st' h
    rw [scanList] at h
    split at h
    · cases h
    · rename_i st1 hstep
      obtain ⟨m1, m2, m3, m4⟩ := scanStep_mono cfg scanOf st fp st1 hstep
      obtain ⟨l1, l2, l3, l4⟩ := ih st1 st' h
      refine ⟨fun r hr => l1 r (m1 r hr), fun d hd => l2 d (m2 d hd),
        fun k hk => l3 k (m3 k hk), ?_⟩
      intro r hr
      rcases l4 r hr with hr' | hr'
      · exact m4 r hr'
      · exact Or.inr hr'

/-- If every source in the list scans successfully, the loop completes, and
afterwards every listed source has an artifact present and its directories
created. -/
theorem scanList_all_ok (cfg : NetcdfChunker) (scanOf : String → ScanOutcome) :
    ∀ (l : List String) (st : ScanState),
      (∀ fp ∈ l, ∃ c, scanOf fp = .ok c) →
      ∃ st', scanList cfg scanOf st l = .ok st' ∧
        ∀ fp ∈ l, (st'.store.lookup (fp_json cfg fp)).isSome = true ∧
          json_dataset_dir cfg ∈ st'.dirs ∧ parent_dir cfg fp ∈ st'.dirs := by
  intro l
  induction l with
  | nil =>
    intro st _
    exact ⟨st, rfl, by simp⟩
  | cons fp rest ih =>
    intro st hok
    have hstep : ∃ st1, scanStep cfg scanOf st fp = .ok st1 ∧
        (st1.store.lookup (fp_json cfg fp)).isSome = true ∧
        json_dataset_dir cfg ∈ st1.dirs ∧ parent_dir cfg fp ∈ st1.dirs := by
      by_cases hb : ((st.store.lookup (fp_json cfg fp)).isSome && !cfg.force_scan)
          = true
      · have hex : (st.store.lookup (fp_json cfg fp)).isSome = true :=
          (Bool.and_eq_true _ _).mp hb |>.1
        have hf : cfg.force_scan = false := by
          have := (Bool.and_eq_true _ _).mp hb |>.2
          simpa using this
        refine ⟨ensured cfg st fp, scanStep_hit cfg scanOf st fp hex hf, ?_, ?_, ?_⟩
        · rw [ensured_store]; exact hex
        · exact mem_ensured_jdd cfg st fp
        · exact mem_ensured_parent cfg st fp
      · have hmiss : ((st.store.lookup (fp_json cfg fp)).isSome &&
            !cfg.force_scan) = false := by
          simpa using hb
        obtain ⟨c, hc⟩ := hok fp (List.mem_cons_self fp rest)
        refine ⟨afterWrite cfg st fp c,
          scanStep_miss_ok cfg scanOf st fp c hmiss hc, ?_, ?_, ?_⟩
        · simp only [afterWrite, ensured_store]
          rw [lookup_setFile_self]
          rfl
        · exact mem_ensured_jdd cfg st fp
        · exact mem_ensured_parent cfg st fp
    obtain ⟨st1, hstep, hsome1, hjdd1, hpar1⟩ := hstep
    obtain ⟨st', hrun, hrest⟩ :=
      ih st1 (fun x hx => hok x (List.mem_cons_of_mem fp hx))
    obtain ⟨m1, m2, m3, m4⟩ := scanList_mono cfg scanOf rest st1 st' hrun
    refine ⟨st', ?_, ?_⟩
    · rw [scanList, hstep]
      exact hrun
    · intro x hx
      rcases List.mem_cons.mp hx with rfl | hx'
      · exact ⟨m3 _ hsome1, m2 _ hjdd1, m2 _ hpar1⟩
      · exact hrest x hx'

/-- If force_scan is off, every listed artifact is present and every needed
directory already exists, the loop is a no-op: it returns its input state. -/
theorem scanList_fix (cfg : NetcdfChunker) (scanOf : String → ScanOutcome)
    (hf : cfg.force_scan = false) :
    ∀ (l : List String) (st : ScanState),
      (∀ fp ∈ l, (st.store.lookup (fp_json cfg fp)).isSome = true ∧
        json_dataset_dir cfg ∈ st.dirs ∧ parent_dir cfg fp ∈ st.dirs) →
      scanList cfg scanOf st l = .ok st := by
  intro l
  induction l with
  | nil => intro st _; rfl
  | cons fp rest ih =>
    intro st hall
    obtain ⟨h1, h2, h3⟩ := hall fp (List.mem_cons_self fp rest)
    have hens : ensured cfg st fp = st := ensured_of_mem cfg st fp h2 h3
    have hstep : scanStep cfg scanOf st fp = .ok st := by
      rw [scanStep_hit cfg scanOf st fp h1 hf, hens]
    rw [scanList, hstep]
    exact ih st (fun x hx => hall x (List.mem_cons_of_mem fp hx))

/-- If force_scan is off and every listed artifact is already present, the
loop completes without touching the store, the reads or the error log; it
only ensures the directories. -/
theorem scanList_skiprun (cfg : NetcdfChunker) (scanOf : String → ScanOutcome)
    (hf : cfg.force_scan = false) :
    ∀ (l : List String) (st : ScanState),
      (∀ fp ∈ l, (st.store.lookup (fp_json cfg fp)).isSome = true) →
      ∃ st', scanList cfg scanOf st l = .ok st' ∧ st'.store = st.store ∧
        st'.reads = st.reads ∧ st'.errors = st.errors ∧
        (∀ fp ∈ l, json_dataset_dir cfg ∈ st'.dirs ∧
          parent_dir cfg fp ∈ st'.dirs) := by
  intro l
  induction l with
  | nil =>
    intro st _
    exact ⟨st, rfl, rfl, rfl, rfl, by simp⟩
  | cons fp rest ih =>
    intro st hall
    have h1 := hall fp (List.mem_cons_self fp rest)
    have hstep : scanStep cfg scanOf st fp = .ok (ensured cfg st fp) :=
      scanStep_hit cfg scanOf st fp h1 hf
    obtain ⟨st', hrun, hs, hr, he, hd⟩ := ih (ensured cfg st fp) (by
      intro x hx
      rw [ensured_store]
      exact hall x (List.mem_cons_of_mem fp hx))
    obtain ⟨m1, m2, m3, m4⟩ :=
      scanList_mono cfg scanOf rest (ensured cfg st fp) st' hrun
    refine ⟨st', ?_, ?_, ?_, ?_, ?_⟩
    · rw [scanList, hstep]
      exact hrun
    · rw [hs, ensured_store]
    · rw [hr, ensured_reads]
    · rw [he, ensured_errors]
    · intro x hx
      rcases List.mem_cons.mp hx with rfl | hx'
      · exact ⟨m2 _ (mem_ensured_jdd cfg st x), m2 _ (mem_ensured_parent cfg st x)⟩
      · exact hd x hx'

/-- With force_scan on, a completed loop has opened every listed source. -/
theorem scanList_force (cfg : NetcdfChunker) (scanOf : String → ScanOutcome)
    (hf : cfg.force_scan = true) :
    ∀ (l : List String) (st st' : ScanState),
      scanList cfg scanOf st l = .ok st' →
      ∀ fp ∈ l, (fp, cfg.input_fs_args) ∈ st'.reads := by
  intro l
  induction l with
  | nil =>
    intro st st' _ fp hfp
    cases hfp
  | cons fp rest ih =>
    intro st st' h x hx
    rw [scanList] at h
    split at h
    · cases h
    · rename_i st1 hstep
      rcases List.mem_cons.mp hx with rfl | hx'
      · obtain ⟨m1, _, _, _⟩ := scanList_mono cfg scanOf rest st1 st' h
        apply m1
        unfold scanStep at hstep
        rw [if_neg (by rw [hf]; simp)] at hstep
        split at hstep
        · cases hstep
        · cases hstep
        · cases hstep
          simp [afterOSErr, ensured_reads]
        · cases hstep
          simp [afterWrite, ensured_reads]
      · exact ih st1 st' h x hx'

/-!  Round-trip lemmas for the path model: rendering a well-formed component
list and reparsing it recovers the components.  These drive the analysis of
the fp_json derivation, which renders intermediate paths to strings
(as_posix) and reparses them when joining. -/

theorem toList_mk (cs : List Char) : (String.mk cs).toList = cs := rfl

theorem mk_toList (s : String) : String.mk s.toList = s := rfl

theorem splitSlashAux_no_slash (cs : List Char) (h : '/' ∉ cs) :
    ∀ (rest acc : List Char),
      splitSlashAux (cs ++ rest) acc = splitSlashAux rest (cs.reverse ++ acc) := by
  induction cs with
  | nil => intro rest acc; simp
  | cons c cs ih =>
    intro rest acc
    have hc : ¬(c = '/') := fun hc => h (by rw [hc]; exact List.mem_cons_self _ _)
    simp only [List.cons_append, splitSlashAux, if_neg hc]
    rw [show splitSlashAux (cs.append rest) (c :: acc) =
        splitSlashAux rest (cs.reverse ++ (c :: acc)) from
      ih (fun hm => h (List.mem_cons_of_mem c hm)) rest (c :: acc)]
    simp [List.append_assoc]

theorem splitSlashAux_mem_no_slash :
    ∀ (cs acc : List Char), '/' ∉ acc →
      ∀ x ∈ splitSlashAux cs acc, '/' ∉ x := by
  intro cs
  induction cs with
  | nil =>
    intro acc hacc x hx
    simp only [splitSlashAux, List.mem_singleton] at hx
    subst hx
    simpa using hacc
  | cons c cs ih =>
    intro acc hacc x hx
    simp only [splitSlashAux] at hx
    split at hx
    · rcases List.mem_cons.mp hx with rfl | hx'
      · simpa using hacc
      · exact ih [] (by simp) x hx'
    · rename_i hc
      refine ih (c :: acc) ?_ x hx
      intro hm
      rcases List.mem_cons.mp hm with h1 | h1
      · exact hc h1.symm
      · exact hacc h1

theorem splitSlashAux_renderParts (l : List String)
    (hl : ∀ s ∈ l, '/' ∉ s.toList) (hne : l ≠ []) :
    splitSlashAux (renderParts l) [] = l.map String.toList := by
  induction l with
  | nil => exact absurd rfl hne
  | cons s rest ih =>
    cases rest with
    | nil =>
      show splitSlashAux (renderParts [s]) [] = [s.toList]
      rw [renderParts]
      rw [show s.toList = s.toList ++ [] from by simp,
        splitSlashAux_no_slash s.toList (hl s (List.mem_cons_self s [])) [] []]
      simp [splitSlashAux]
    | cons t rest' =>
      show splitSlashAux (s.toList ++ '/' :: renderParts (t :: rest')) [] = _
      rw [splitSlashAux_no_slash s.toList (hl s (List.mem_cons_self s _)) _ []]
      simp only [splitSlashAux, if_pos rfl]
      rw [ih (fun x hx => hl x (List.mem_cons_of_mem s hx)) (by simp)]
      simp

theorem parsePath_wf (s : String) :
    ∀ q ∈ (parsePath s).parts, q ≠ "" ∧ q ≠ "." ∧ '/' ∉ q.toList := by
  intro q hq
  simp only [parsePath, List.mem_filter, List.mem_map] at hq
  obtain ⟨⟨cs, hcs, rfl⟩, hcond⟩ := hq
  have hb := (Bool.and_eq_true _ _).mp hcond
  refine ⟨?_, ?_, ?_⟩
  · intro he
    rw [he] at hb
    simpa using hb.1
  · intro he
    rw [he] at hb
    simpa using hb.2
  · rw [toList_mk]
    exact splitSlashAux_mem_no_slash s.toList [] (by simp) cs hcs

theorem map_mk_toList (l : List String) :
    (l.map String.toList).map String.mk = l := by
  rw [List.map_map]
  have : ∀ s ∈ l, (String.mk ∘ String.toList) s = id s := fun s _ => rfl
  rw [List.map_congr_left this, List.map_id]

theorem filter_parts_eq_self (l : List String)
    (hw : ∀ s ∈ l, s ≠ "" ∧ s ≠ ".") :
    l.filter (fun p => !(p == "") && !(p == ".")) = l := by
  rw [List.filter_eq_self]
  intro a ha
  simp [(hw a ha).1, (hw a ha).2]

/-- Parsing the rendered form of a well-formed nonempty component list
recovers the components (the shared core of the as_posix round trips). -/
theorem parsed_render (l : List String)
    (hw : ∀ s ∈ l, s ≠ "" ∧ s ≠ "." ∧ '/' ∉ s.toList) (hne : l ≠ []) :
    ((splitSlashAux (renderParts l) []).map String.mk).filter
      (fun p => !(p == "") && !(p == ".")) = l := by
  rw [splitSlashAux_renderParts l (fun s hs => (hw s hs).2.2) hne, map_mk_toList]
  exact filter_parts_eq_self l (fun s hs => ⟨(hw s hs).1, (hw s hs).2.1⟩)

theorem parsePath_asPosix (p : PurePath)
    (hw : ∀ s ∈ p.parts, s ≠ "" ∧ s ≠ "." ∧ '/' ∉ s.toList) :
    parsePath p.asPosix = p := by
  obtain ⟨abs, parts⟩ := p
  have heta : parsePath (PurePath.asPosix ⟨abs, parts⟩) =
      ⟨(parsePath (PurePath.asPosix ⟨abs, parts⟩)).absolute,
       (parsePath (PurePath.asPosix ⟨abs, parts⟩)).parts⟩ := rfl
  cases abs with
  | true =>
    cases parts with
    | nil => decide
    | cons s rest =>
      have habs : (parsePath (PurePath.asPosix ⟨true, s :: rest⟩)).absolute = true := by
        show ((String.mk ('/' :: renderParts (s :: rest))).toList.head? ==
          some '/') = true
        rfl
      have hparts : (parsePath (PurePath.asPosix ⟨true, s :: rest⟩)).parts =
          s :: rest := by
        show (((splitSlashAux (String.mk ('/' :: renderParts (s :: rest))).toList
          []).map String.mk).filter (fun p => !(p == "") && !(p == "."))) = _
        rw [toList_mk]
        rw [show splitSlashAux ('/' :: renderParts (s :: rest)) [] =
            [] :: splitSlashAux (renderParts (s :: rest)) [] from by
          simp [splitSlashAux]]
        rw [List.map_cons, List.filter_cons,
          if_neg (by decide :
            ¬((!(String.mk [] == "") && !(String.mk [] == ".")) = true))]
        exact parsed_render (s :: rest) hw (by simp)
      rw [heta, habs, hparts]
  | false =>
    cases parts with
    | nil => decide
    | cons s rest =>
      have hform : PurePath.asPosix ⟨false, s :: rest⟩ =
          String.mk (renderParts (s :: rest)) := rfl
      have hhd : ∃ c cs, renderParts (s :: rest) = c :: cs ∧ ¬(c = '/') := by
        have hs1 : s ≠ "" := (hw s (List.mem_cons_self s rest)).1
        have hs3 : '/' ∉ s.toList := (hw s (List.mem_cons_self s rest)).2.2
        have htl : ∃ c cs', s.toList = c :: cs' := by
          cases hc : s.toList with
          | nil =>
            exact absurd (by
              have := congrArg String.mk hc
              rwa [mk_toList] at this) hs1
          | cons c cs' => exact ⟨c, cs', rfl⟩
        obtain ⟨c, cs', hc⟩ := htl
        have hcne : ¬(c = '/') := by
          intro he
          exact hs3 (by rw [hc, he]; exact List.mem_cons_self _ _)
        cases rest with
        | nil =>
          refine ⟨c, cs', ?_, hcne⟩
          show s.toList = c :: cs'
          exact hc
        | cons t rest' =>
          refine ⟨c, cs' ++ '/' :: renderParts (t :: rest'), ?_, hcne⟩
          show s.toList ++ '/' :: renderParts (t :: rest') =
            c :: (cs' ++ '/' :: renderParts (t :: rest'))
          rw [hc]
          rfl
      obtain ⟨c, cs, hc, hcne⟩ := hhd
      have habs : (parsePath (PurePath.asPosix ⟨false, s :: rest⟩)).absolute
          = false := by
        show ((String.mk (renderParts (s :: rest))).toList.head? == some '/')
          = false
        rw [toList_mk, hc]
        simp [hcne]
      have hparts : (parsePath (PurePath.asPosix ⟨false, s :: rest⟩)).parts =
          s :: rest := by
        show (((splitSlashAux (String.mk (renderParts (s :: rest))).toList
          []).map String.mk).filter (fun p => !(p == "") && !(p == "."))) = _
        rw [toList_mk]
        exact parsed_render (s :: rest) hw (by simp)
      rw [heta, habs, hparts]

/-!  Consequences for the artifact-path derivation. -/

theorem join_rel (p : PurePath) (s : String)
    (h : (parsePath s).absolute = false) :
    p.join s = ⟨p.absolute, p.parts ++ (parsePath s).parts⟩ := by
  unfold PurePath.join
  rw [h]
  rfl

theorem join_abs (p : PurePath) (s : String)
    (h : (parsePath s).absolute = true) :
    p.join s = parsePath s := by
  unfold PurePath.join
  rw [h]
  rfl

theorem parsePath_parent_asPosix (fp : String)
    (hfp : (parsePath fp).absolute = false) :
    parsePath ((parsePath fp).parent.asPosix) =
      ⟨false, (parsePath fp).parts.dropLast⟩ := by
  have hpar : (parsePath fp).parent = ⟨false, (parsePath fp).parts.dropLast⟩ := by
    unfold PurePath.parent
    rw [show parsePath fp =
      ⟨(parsePath fp).absolute, (parsePath fp).parts⟩ from rfl, hfp]
  rw [hpar]
  exact parsePath_asPosix ⟨false, (parsePath fp).parts.dropLast⟩
    (fun s hs => parsePath_wf fp s (List.mem_of_mem_dropLast hs))

theorem parsePath_single (s : String) (h1 : s.toList ≠ [])
    (h2 : s.toList ≠ ['.']) (h3 : '/' ∉ s.toList) :
    parsePath s = ⟨false, [s]⟩ := by
  have hs1 : s ≠ "" := fun he => h1 (by rw [he]; rfl)
  have hs2 : s ≠ "." := fun he => h2 (by rw [he]; rfl)
  have := parsePath_asPosix ⟨false, [s]⟩ (by
    intro x hx
    rw [List.mem_singleton] at hx
    subst hx
    exact ⟨hs1, hs2, h3⟩)
  have hform : PurePath.asPosix ⟨false, [s]⟩ = s := by
    show (if ([s] : List String).isEmpty then "." else String.mk (renderParts [s])) = s
    rfl
  rwa [hform] at this

theorem with_suffix_json_toList (name : String) :
    (with_suffix_json name).toList =
      name.toList.take (name.toList.length - suffix_len name)
        ++ ['.', 'j', 's', 'o', 'n'] := rfl

theorem with_suffix_json_ne_nil (name : String) :
    (with_suffix_json name).toList ≠ [] := by
  rw [with_suffix_json_toList]
  simp

theorem with_suffix_json_ne_dot (name : String) :
    (with_suffix_json name).toList ≠ ['.'] := by
  rw [with_suffix_json_toList]
  intro h
  have := congrArg List.length h
  simp at this

theorem with_suffix_json_no_slash (name : String) (h : '/' ∉ name.toList) :
    '/' ∉ (with_suffix_json name).toList := by
  rw [with_suffix_json_toList]
  intro hm
  rcases List.mem_append.mp hm with hm' | hm'
  · exact h (List.take_subset _ _ hm')
  · simp at hm'

theorem name_no_slash (fp : String) : '/' ∉ ((parsePath fp).name).toList := by
  unfold PurePath.name
  cases hg : (parsePath fp).parts.getLast? with
  | none => simp
  | some s =>
    have hs : s ∈ (parsePath fp).parts := List.mem_of_mem_getLast? (by rw [hg]; rfl)
    simpa using (parsePath_wf fp s hs).2.2

/-- Parsing the renamed file name yields a single relative component. -/
theorem parsePath_name_json (fp : String) :
    parsePath (with_suffix_json ((parsePath fp).name)) =
      ⟨false, [with_suffix_json ((parsePath fp).name)]⟩ :=
  parsePath_single _ (with_suffix_json_ne_nil _) (with_suffix_json_ne_dot _)
    (with_suffix_json_no_slash _ (name_no_slash fp))

theorem parsePath_append_zarr (dn : String)
    (h : (parsePath dn).absolute = false) :
    (parsePath (dn ++ ".zarr")).absolute = false := by
  have hdata : (dn ++ ".zarr").toList = dn.toList ++ ['.', 'z', 'a', 'r', 'r'] := by
    obtain ⟨data⟩ := dn
    rfl
  show ((dn ++ ".zarr").toList.head? == some '/') = false
  rw [hdata]
  cases hd : dn.toList with
  | nil => rfl
  | cons c cs =>
    have : ((dn.toList.head? == some '/') : Bool) = false := h
    rw [hd] at this
    simpa using this

/-!  Properties of URI resolution. -/

theorem mem_foldl_glob (glob : String → List (String × String) → List String) :
    ∀ (l : List String) (acc : List String) (x : String),
      (x ∈ l.foldl (fun a p => a ++ glob p []) acc ↔
        x ∈ acc ∨ ∃ p ∈ l, x ∈ glob p []) := by
  intro l
  induction l with
  | nil => intro acc x; simp
  | cons p l ih =>
    intro acc x
    rw [List.foldl_cons, ih]
    simp only [List.mem_append, List.mem_cons]
    constructor
    · rintro ((hx | hx) | ⟨q, hq, hx⟩)
      · exact Or.inl hx
      · exact Or.inr ⟨p, Or.inl rfl, hx⟩
      · exact Or.inr ⟨q, Or.inr hq, hx⟩
    · rintro (hx | ⟨q, (rfl | hq), hx⟩)
      · exact Or.inl (Or.inl hx)
      · exact Or.inl (Or.inr hx)
      · exact Or.inr ⟨q, hq, hx⟩

theorem mem_glob_all (cfg : NetcdfChunker)
    (glob : String → List (String × String) → List String) (x : String) :
    x ∈ glob_all cfg glob ↔ ∃ p ∈ cfg.input, x ∈ glob p [] := by
  unfold glob_all
  rw [mem_foldl_glob]
  simp

theorem get_uri_list_sorted (cfg : NetcdfChunker)
    (glob : String → List (String × String) → List String) :
    List.Sorted (· ≤ ·) (get_uri_list cfg glob) := by
  have h := List.sorted_insertionSort uriLe ((glob_all cfg glob).dedup)
  exact h.imp (fun {a b} hab => (uriLe_iff_le a b).mp hab)

theorem get_uri_list_nodup (cfg : NetcdfChunker)
    (glob : String → List (String × String) → List String) :
    (get_uri_list cfg glob).Nodup := by
  unfold get_uri_list
  exact (List.perm_insertionSort uriLe _).nodup_iff.mpr (List.nodup_dedup _)

theorem mem_get_uri_list (cfg : NetcdfChunker)
    (glob : String → List (String × String) → List String) (x : String) :
    x ∈ get_uri_list cfg glob ↔ ∃ p ∈ cfg.input, x ∈ glob p [] := by
  unfold get_uri_list
  rw [(List.perm_insertionSort uriLe _).mem_iff, List.mem_dedup, mem_glob_all]

/-- Two sorted lists without duplicates and with the same members coincide. -/
theorem sorted_nodup_ext (l1 l2 : List String)
    (hs1 : List.Sorted uriLe l1) (hs2 : List.Sorted uriLe l2)
    (hn1 : l1.Nodup) (hn2 : l2.Nodup) (hm : ∀ x, x ∈ l1 ↔ x ∈ l2) :
    l1 = l2 :=
  List.eq_of_perm_of_sorted ((List.perm_ext_iff_of_nodup hn1 hn2).mpr hm) hs1 hs2

theorem get_uri_list_ext (cfg cfg' : NetcdfChunker)
    (glob : String → List (String × String) → List String)
    (hm : ∀ p, p ∈ cfg.input ↔ p ∈ cfg'.input) :
    get_uri_list cfg glob = get_uri_list cfg' glob := by
  apply sorted_nodup_ext
  · exact List.sorted_insertionSort uriLe _
  · exact List.sorted_insertionSort uriLe _
  · exact get_uri_list_nodup cfg glob
  · exact get_uri_list_nodup cfg' glob
  · intro x
    rw [mem_get_uri_list, mem_get_uri_list]
    constructor
    · rintro ⟨p, hp, hx⟩; exact ⟨p, (hm p).mp hp, hx⟩
    · rintro ⟨p, hp, hx⟩; exact ⟨p, (hm p).mpr hp, hx⟩

/-!  Properties of artifact enumeration and consolidation. -/

theorem artifact_keys_mem (cfg : NetcdfChunker) (store : List (String × String))
    (k : String) :
    (k ∈ (((store.map Prod.fst).filter
        (fun x => under_dir (json_dataset_dir cfg) x && json_ext x)).dedup).insertionSort
          uriLe) ↔
      ((store.lookup k).isSome = true ∧
        (under_dir (json_dataset_dir cfg) k && json_ext k) = true) := by
  rw [(List.perm_insertionSort uriLe _).mem_iff, List.mem_dedup, List.mem_filter,
    lookup_isSome_iff_mem]

theorem list_artifacts_ext (cfg : NetcdfChunker)
    (store1 store2 : List (String × String))
    (h : ∀ k, store1.lookup k = store2.lookup k) :
    list_artifacts cfg store1 = list_artifacts cfg store2 := by
  unfold list_artifacts
  have hkeys :
      (((store1.map Prod.fst).filter
        (fun x => under_dir (json_dataset_dir cfg) x && json_ext x)).dedup).insertionSort
          uriLe =
      (((store2.map Prod.fst).filter
        (fun x => under_dir (json_dataset_dir cfg) x && json_ext x)).dedup).insertionSort
          uriLe := by
    apply sorted_nodup_ext
    · exact List.sorted_insertionSort uriLe _
    · exact List.sorted_insertionSort uriLe _
    · exact (List.perm_insertionSort uriLe _).nodup_iff.mpr (List.nodup_dedup _)
    · exact (List.perm_insertionSort uriLe _).nodup_iff.mpr (List.nodup_dedup _)
    · intro x
      rw [artifact_keys_mem, artifact_keys_mem, h x]
  rw [hkeys]
  apply List.map_congr_left
  intro k _
  rw [h k]

theorem mem_list_artifacts (cfg : NetcdfChunker) (store : List (String × String))
    (k v : String) :
    (k, v) ∈ list_artifacts cfg store ↔
      (store.lookup k = some v ∧
        (under_dir (json_dataset_dir cfg) k && json_ext k) = true) := by
  unfold list_artifacts
  rw [List.mem_map]
  constructor
  · rintro ⟨a, ha, hav⟩
    rw [artifact_keys_mem] at ha
    obtain ⟨h1, h2⟩ := ha
    obtain ⟨w, hw⟩ := Option.isSome_iff_exists.mp h1
    rw [Prod.mk.injEq] at hav
    obtain ⟨rfl, rfl⟩ := hav
    exact ⟨by rw [hw]; rfl, h2⟩
  · rintro ⟨h1, h2⟩
    refine ⟨k, ?_, ?_⟩
    · rw [artifact_keys_mem]
      exact ⟨by rw [h1]; rfl, h2⟩
    · rw [h1]
      rfl

theorem foldl_glob_congr (glob glob' : String → List (String × String) → List String)
    (heq : ∀ pat, glob pat [] = glob' pat []) :
    ∀ (l : List String) (acc : List String),
      l.foldl (fun a p => a ++ glob p []) acc =
        l.foldl (fun a p => a ++ glob' p []) acc := by
  intro l
  induction l with
  | nil => intro acc; rfl
  | cons p l ih =>
    intro acc
    rw [List.foldl_cons, List.foldl_cons, heq p, ih]

/-!  The spec-side path formulas (written from the specification text, for
comparison with the code-side derivation): the per-source artifact lives at
json_dir / dataset_name / (parent directories of the URI) / (URI file name
with its extension replaced by .json), and the merged artifact at
zarr_output / (dataset_name ++ ".zarr"). -/

def spec_fp_jsonP (cfg : NetcdfChunker) (fp : String) : PurePath :=
  { absolute := (parsePath cfg.json_dir).absolute
    parts := (parsePath cfg.json_dir).parts ++ (parsePath cfg.dataset_name).parts
      ++ (parsePath fp).parts.dropLast
      ++ [with_suffix_json ((parsePath fp).name)] }

def spec_zarr_pathP (cfg : NetcdfChunker) : PurePath :=
  { absolute := (parsePath cfg.zarr_output).absolute
    parts := (parsePath cfg.zarr_output).parts
      ++ (parsePath (cfg.dataset_name ++ ".zarr")).parts }

/-!  Concrete fixtures used by witnesses and counterexamples. -/

def cfg0 : NetcdfChunker :=
  { dataset_name := "mydataset", input := ["a/*"], input_fs_args := [],
    json_dir := "json", zarr_output := "zarr", force_scan := false }

def st_empty : ScanState := { store := [], dirs := [], reads := [], errors := [] }

def globA : String → List (String × String) → List String := fun _ _ => ["a/1.nc"]

def scanA : String → ScanOutcome := fun _ => .ok "data"

def st1W : ScanState :=
  { store := [("json/mydataset/a/1.json", "data")]
    dirs := ["json/mydataset", "json/mydataset/a"]
    reads := [("a/1.nc", [])]
    errors := [] }

def glob1 : String → List (String × String) → List String :=
  fun _ _ => ["a/1.nc", "a/2.nc"]

def scan1 : String → ScanOutcome :=
  fun fp => if fp == "a/1.nc" then .openError else .ok "x"

def scanOS : String → ScanOutcome := fun _ => .scanOSError

def glob8 : String → List (String × String) → List String :=
  fun _ _ => ["a/1.nc", "a/1.grb"]

def scan8 : String → ScanOutcome :=
  fun fp => if fp == "a/1.grb" then .ok "from-grb" else .ok "from-nc"

/-!  The claims. -/

/-- C1 (counterexample): the claim says an OSError raised while opening or
reading a source is logged and the source merely skipped. In the code the
except-OSError handler sits inside the fsspec.open context, so an OSError
raised by the open itself propagates: with two sources of which the first
fails to open, the whole run aborts with that error and the second source is
never processed, instead of continuing. -/
theorem c1_counterexample :
    scan1 "a/1.nc" = ScanOutcome.openError ∧
    scan_them_all cfg0 glob1 scan1 st_empty = .error "a/1.nc" := ⟨rfl, rfl⟩

/-- C1 (amended): on a cache miss, an OSError raised while indexing the
already-opened source (inside the try block) is logged, produces no
artifact, and the loop continues with the remaining sources; an OSError
raised while opening the source (outside the try block) aborts the run. -/
theorem c1_osError_handling (cfg : NetcdfChunker) (scanOf : String → ScanOutcome)
    (st : ScanState) (fp : String) (rest : List String)
    (hmiss : (st.store.lookup (fp_json cfg fp)).isSome = false) :
    (scanOf fp = ScanOutcome.scanOSError →
      scanStep cfg scanOf st fp = .ok (afterOSErr cfg st fp) ∧
      (afterOSErr cfg st fp).store = st.store ∧
      (afterOSErr cfg st fp).errors = st.errors ++ [fp] ∧
      scanList cfg scanOf st (fp :: rest) =
        scanList cfg scanOf (afterOSErr cfg st fp) rest) ∧
    (scanOf fp = ScanOutcome.openError →
      scanList cfg scanOf st (fp :: rest) = .error fp) := by
  have hmiss' : ((st.store.lookup (fp_json cfg fp)).isSome && !cfg.force_scan)
      = false := by
    rw [hmiss]
    rfl
  constructor
  · intro hc
    refine ⟨scanStep_miss_osErr cfg scanOf st fp hmiss' hc, ?_, ?_, ?_⟩
    · simp [afterOSErr, ensured_store]
    · simp [afterOSErr, ensured_errors]
    · rw [scanList, scanStep_miss_osErr cfg scanOf st fp hmiss' hc]
  · intro hc
    rw [scanList, scanStep_miss_openErr cfg scanOf st fp hmiss' hc]

/-- C1 witness: the amended theorem applied at a concrete cache-missing
source whose indexing raises an OSError. -/
theorem c1_witness :
    ((st_empty.store.lookup (fp_json cfg0 "bad.nc")).isSome = false) ∧
    ((scanOS "bad.nc" = ScanOutcome.scanOSError →
      scanStep cfg0 scanOS st_empty "bad.nc" = .ok (afterOSErr cfg0 st_empty "bad.nc") ∧
      (afterOSErr cfg0 st_empty "bad.nc").store = st_empty.store ∧
      (afterOSErr cfg0 st_empty "bad.nc").errors = st_empty.errors ++ ["bad.nc"] ∧
      scanList cfg0 scanOS st_empty ["bad.nc"] =
        scanList cfg0 scanOS (afterOSErr cfg0 st_empty "bad.nc") []) ∧
    (scanOS "bad.nc" = ScanOutcome.openError →
      scanList cfg0 scanOS st_empty ["bad.nc"] = .error "bad.nc")) :=
  ⟨rfl, c1_osError_handling cfg0 scanOS st_empty "bad.nc" [] rfl⟩

/-- C2: with force_scan off, a source whose artifact already exists is
skipped entirely (only the directory-ensure runs: the store and the read
trace are untouched), and a second indexing run from the state produced by a
fully successful run is the identity: it returns exactly the same state, so
every artifact is byte-identical and no source is opened. -/
theorem c2_idempotent_rescan (cfg : NetcdfChunker)
    (glob : String → List (String × String) → List String)
    (scanOf : String → ScanOutcome) (st0 st1 : ScanState)
    (hf : cfg.force_scan = false)
    (hok : ∀ fp ∈ get_uri_list cfg glob, ∃ c, scanOf fp = .ok c)
    (h1 : scan_them_all cfg glob scanOf st0 = .ok st1) :
    (∀ st fp, (st.store.lookup (fp_json cfg fp)).isSome = true →
      scanStep cfg scanOf st fp = .ok (ensured cfg st fp) ∧
      (ensured cfg st fp).store = st.store ∧
      (ensured cfg st fp).reads = st.reads) ∧
    scan_them_all cfg glob scanOf st1 = .ok st1 := by
  constructor
  · intro st fp hex
    exact ⟨scanStep_hit cfg scanOf st fp hex hf, ensured_store cfg st fp,
      ensured_reads cfg st fp⟩
  · unfold scan_them_all at h1 ⊢
    obtain ⟨st', hrun, hprops⟩ :=
      scanList_all_ok cfg scanOf (get_uri_list cfg glob) st0 hok
    rw [h1] at hrun
    injection hrun with hrun
    subst hrun
    exact scanList_fix cfg scanOf hf _ st1 hprops

/-- C2 witness: a successful single-source run, after which re-running the
indexing pass returns the same state unchanged. -/
theorem c2_witness :
    cfg0.force_scan = false ∧
    ((∀ st fp, (st.store.lookup (fp_json cfg0 fp)).isSome = true →
      scanStep cfg0 scanA st fp = .ok (ensured cfg0 st fp) ∧
      (ensured cfg0 st fp).store = st.store ∧
      (ensured cfg0 st fp).reads = st.reads) ∧
    scan_them_all cfg0 globA scanA st1W = .ok st1W) :=
  ⟨rfl, c2_idempotent_rescan cfg0 globA scanA st_empty st1W rfl
    (fun _ _ => ⟨"data", rfl⟩) rfl⟩

/-- C3: URI resolution returns the deduplicated union of the per-pattern
glob expansions in lexicographically sorted order, and the result depends
only on the set of patterns: permuting the argument list leaves it
unchanged. -/
theorem c3_resolution_deterministic
    (glob : String → List (String × String) → List String)
    (cfg cfg' : NetcdfChunker) (hperm : cfg.input.Perm cfg'.input) :
    get_uri_list cfg glob = get_uri_list cfg' glob ∧
    List.Sorted (· ≤ ·) (get_uri_list cfg glob) ∧
    (get_uri_list cfg glob).Nodup ∧
    (∀ u, u ∈ get_uri_list cfg glob ↔ ∃ p ∈ cfg.input, u ∈ glob p []) :=
  ⟨get_uri_list_ext cfg cfg' glob (fun _ => hperm.mem_iff),
    get_uri_list_sorted cfg glob, get_uri_list_nodup cfg glob,
    mem_get_uri_list cfg glob⟩

def cfg3a : NetcdfChunker := { cfg0 with input := ["b/*", "a/*"] }

def cfg3b : NetcdfChunker := { cfg0 with input := ["a/*", "b/*"] }

def glob3 : String → List (String × String) → List String :=
  fun pat _ => if pat == "a/*" then ["a/2.nc", "a/1.nc"] else ["b/1.nc", "a/1.nc"]

/-- C3 witness: the resolution theorem applied to two permuted pattern
lists whose expansions overlap. -/
theorem c3_witness :
    cfg3a.input.Perm cfg3b.input ∧
    (get_uri_list cfg3a glob3 = get_uri_list cfg3b glob3 ∧
    List.Sorted (· ≤ ·) (get_uri_list cfg3a glob3) ∧
    (get_uri_list cfg3a glob3).Nodup ∧
    (∀ u, u ∈ get_uri_list cfg3a glob3 ↔ ∃ p ∈ cfg3a.input, u ∈ glob3 p [])) :=
  ⟨List.Perm.swap "a/*" "b/*" [],
    c3_resolution_deterministic glob3 cfg3a cfg3b (List.Perm.swap "a/*" "b/*" [])⟩

/-- C4 (counterexample): the claim says the artifact path equals
json_dir/dataset_name/(parents of the URI)/(name with .json) for every
source URI. For an absolute URI (which local fsspec globs produce), the
pathlib join discards the json_dir/dataset_name prefix entirely and the
artifact path is the source's own directory with the extension swapped. -/
theorem c4_counterexample :
    fp_json cfg0 "/data/a/1.nc" = "/data/a/1.json" ∧
    (spec_fp_jsonP cfg0 "/data/a/1.nc").asPosix = "json/mydataset/data/a/1.json" ∧
    fp_jsonP cfg0 "/data/a/1.nc" ≠ spec_fp_jsonP cfg0 "/data/a/1.nc" := by
  refine ⟨rfl, rfl, ?_⟩
  decide

/-- C4 (amended): for relative source URIs (and a relative dataset name),
the artifact path is exactly json_dir / dataset_name / (parent directories
of the URI) / (URI file name with its extension replaced by .json), and the
consolidated output path is zarr_output / (dataset_name ++ ".zarr"); for
absolute URIs the namespace prefix is discarded (see the counterexample). -/
theorem c4_artifact_path (cfg : NetcdfChunker) (fp : String)
    (hfp : (parsePath fp).absolute = false)
    (hdn : (parsePath cfg.dataset_name).absolute = false) :
    fp_jsonP cfg fp = spec_fp_jsonP cfg fp ∧
    zarr_pathP cfg = spec_zarr_pathP cfg := by
  constructor
  · unfold fp_jsonP json_dataset_dirP spec_fp_jsonP
    rw [join_rel _ _ hdn]
    have hmid := parsePath_parent_asPosix fp hfp
    rw [join_rel _ _ (by rw [parsePath_name_json fp])]
    rw [join_rel _ _ (by rw [hmid])]
    rw [hmid, parsePath_name_json fp]
  · unfold zarr_pathP spec_zarr_pathP
    rw [join_rel _ _ (parsePath_append_zarr cfg.dataset_name hdn)]

/-- C4 witness: the amended theorem applied at a relative URI. -/
theorem c4_witness :
    (parsePath "a/1.nc").absolute = false ∧
    (parsePath cfg0.dataset_name).absolute = false ∧
    (fp_jsonP cfg0 "a/1.nc" = spec_fp_jsonP cfg0 "a/1.nc" ∧
      zarr_pathP cfg0 = spec_zarr_pathP cfg0) :=
  ⟨rfl, rfl, c4_artifact_path cfg0 "a/1.nc" rfl rfl⟩

/-- C5: the merged output is a function only of the artifacts present in the
dataset namespace at consolidation time: two consolidation runs over stores
holding the same artifact files (and with arbitrary, possibly different,
previously written merged artifacts) produce identical results. -/
theorem c5_consolidation_extensional (cfg : NetcdfChunker)
    (mzz : List (String × String) → List String → String)
    (store1 store2 : List (String × String)) (p1 p2 : Option String)
    (h : ∀ k, store1.lookup k = store2.lookup k) :
    consolidate cfg mzz store1 p1 = consolidate cfg mzz store2 p2 := by
  unfold consolidate
  rw [list_artifacts_ext cfg store1 store2 h]

def mzzW : List (String × String) → List String → String :=
  fun arts dims => String.intercalate "|" (arts.map Prod.fst ++ dims)

/-- C5 witness: the extensionality theorem applied to a store compared with
itself under different prior-output histories. -/
theorem c5_witness :
    (∀ k, (st1W.store.lookup k) = (st1W.store.lookup k)) ∧
    consolidate cfg0 mzzW st1W.store none =
      consolidate cfg0 mzzW st1W.store (some "old-output") :=
  ⟨fun _ => rfl,
    c5_consolidation_extensional cfg0 mzzW st1W.store st1W.store none
      (some "old-output") (fun _ => rfl)⟩

/-- C6: with force_scan on, the existence check never causes a skip: every
iteration opens its source (appending it to the read trace with the
configured storage options), and a successful scan rewrites the artifact
with the fresh content, whatever the prior store held; moreover a completed
run has opened every resolved URI. -/
theorem c6_force_rescan (cfg : NetcdfChunker)
    (glob : String → List (String × String) → List String)
    (scanOf : String → ScanOutcome) (st st0 st1 : ScanState)
    (fp : String) (c : String)
    (hf : cfg.force_scan = true)
    (hc : scanOf fp = ScanOutcome.ok c)
    (hrun : scan_them_all cfg glob scanOf st0 = .ok st1)
    (hfp : fp ∈ get_uri_list cfg glob) :
    scanStep cfg scanOf st fp = .ok (afterWrite cfg st fp c) ∧
    (afterWrite cfg st fp c).reads = st.reads ++ [(fp, cfg.input_fs_args)] ∧
    (afterWrite cfg st fp c).store.lookup (fp_json cfg fp) = some c ∧
    (fp, cfg.input_fs_args) ∈ st1.reads := by
  have hmiss : ((st.store.lookup (fp_json cfg fp)).isSome && !cfg.force_scan)
      = false := by
    rw [hf]
    simp
  refine ⟨scanStep_miss_ok cfg scanOf st fp c hmiss hc, ?_, ?_, ?_⟩
  · simp [afterWrite, ensured_reads]
  · show (setFile (ensured cfg st fp).store (fp_json cfg fp) c).lookup
      (fp_json cfg fp) = some c
    exact lookup_setFile_self _ _ _
  · exact scanList_force cfg scanOf hf _ st0 st1 hrun fp hfp

def cfg6 : NetcdfChunker := { cfg0 with force_scan := true }

/-- C6 witness: the force theorem applied with a pre-state that already
holds an artifact for the source; the step still reads and rewrites it. -/
theorem c6_witness :
    cfg6.force_scan = true ∧
    scanA "a/1.nc" = ScanOutcome.ok "data" ∧
    (scanStep cfg6 scanA st1W "a/1.nc" = .ok (afterWrite cfg6 st1W "a/1.nc" "data") ∧
    (afterWrite cfg6 st1W "a/1.nc" "data").reads =
      st1W.reads ++ [("a/1.nc", cfg6.input_fs_args)] ∧
    (afterWrite cfg6 st1W "a/1.nc" "data").store.lookup (fp_json cfg6 "a/1.nc") =
      some "data" ∧
    ("a/1.nc", cfg6.input_fs_args) ∈ st1W.reads) :=
  ⟨rfl, rfl, c6_force_rescan cfg6 globA scanA st1W st_empty st1W "a/1.nc" "data"
    rfl rfl rfl (by
      have he : get_uri_list cfg6 globA = ["a/1.nc"] := rfl
      rw [he]
      exact List.mem_singleton.mpr rfl)⟩

/-- C7: consolidation invokes the external collaborator exactly once, on the
full enumeration of the artifacts currently under the dataset namespace
(membership characterized below), with the fixed configuration constant
concat_dims (not derived from the store), writes the result to the fixed
output path derived from the dataset name, and ignores any prior merged
artifact (a re-run fully replaces it). -/
theorem c7_consolidate_contract (cfg : NetcdfChunker)
    (mzz : List (String × String) → List String → String)
    (store : List (String × String)) (prev : Option String) :
    (consolidate cfg mzz store prev).calls =
      [(list_artifacts cfg store, concat_dims)] ∧
    concat_dims = ["analysis_time", "step"] ∧
    (consolidate cfg mzz store prev).output_path = (zarr_pathP cfg).asPosix ∧
    (consolidate cfg mzz store prev).output =
      mzz (list_artifacts cfg store) concat_dims ∧
    (∀ p', consolidate cfg mzz store p' = consolidate cfg mzz store prev) ∧
    (∀ k v, (k, v) ∈ list_artifacts cfg store ↔
      (store.lookup k = some v ∧
        (under_dir (json_dataset_dir cfg) k && json_ext k) = true)) :=
  ⟨rfl, rfl, rfl, rfl, fun _ => rfl, fun k v => mem_list_artifacts cfg store k v⟩

/-- C8: artifact-path derivation is not injective: the distinct sources
a/1.nc and a/1.grb map to the same artifact path, and a run over both (with
force_scan off) reads and indexes only a/1.grb (the first in sorted order);
a/1.nc is then treated as a cache hit and silently skipped, leaving the grb
content as the sole artifact. -/
theorem c8_suffix_collision :
    ("a/1.nc" : String) ≠ "a/1.grb" ∧
    fp_json cfg0 "a/1.nc" = fp_json cfg0 "a/1.grb" ∧
    get_uri_list cfg0 glob8 = ["a/1.grb", "a/1.nc"] ∧
    scan_them_all cfg0 glob8 scan8 st_empty = .ok
      { store := [("json/mydataset/a/1.json", "from-grb")]
        dirs := ["json/mydataset", "json/mydataset/a"]
        reads := [("a/1.grb", [])]
        errors := [] } :=
  ⟨by decide, rfl, rfl, rfl⟩

/-- C9: the storage options are applied only when opening a source for
indexing, never during glob expansion: resolution depends only on the
backend's behaviour at empty options and is unchanged by input_fs_args,
while every recorded source open carries input_fs_args. -/
theorem c9_fs_args_scope (cfg : NetcdfChunker)
    (glob : String → List (String × String) → List String)
    (scanOf : String → ScanOutcome) (st0 st1 : ScanState)
    (h0 : st0.reads = [])
    (h : scan_them_all cfg glob scanOf st0 = .ok st1) :
    (∀ glob', (∀ pat, glob pat [] = glob' pat []) →
      get_uri_list cfg glob = get_uri_list cfg glob') ∧
    (∀ args, get_uri_list { cfg with input_fs_args := args } glob =
      get_uri_list cfg glob) ∧
    (∀ r ∈ st1.reads, r.2 = cfg.input_fs_args) := by
  refine ⟨?_, fun args => rfl, ?_⟩
  · intro glob' heq
    unfold get_uri_list glob_all
    rw [foldl_glob_congr glob glob' heq]
  · intro r hr
    obtain ⟨_, _, _, m4⟩ :=
      scanList_mono cfg scanOf (get_uri_list cfg glob) st0 st1 h
    rcases m4 r hr with hr' | hr'
    · rw [h0] at hr'
      cases hr'
    · exact hr'

/-- C9 witness: the scope theorem applied to a concrete successful run. -/
theorem c9_witness :
    st_empty.reads = [] ∧
    ((∀ glob', (∀ pat, globA pat [] = glob' pat []) →
      get_uri_list cfg0 globA = get_uri_list cfg0 glob') ∧
    (∀ args, get_uri_list { cfg0 with input_fs_args := args } globA =
      get_uri_list cfg0 globA) ∧
    (∀ r ∈ st1W.reads, r.2 = cfg0.input_fs_args)) :=
  ⟨rfl, c9_fs_args_scope cfg0 globA scanA st_empty st1W rfl rfl⟩

/-- C10: directories are created before the cache-hit check: a run with
force_scan off over sources whose artifacts all already exist writes no
artifact and opens no source, yet ends with the dataset directory and every
artifact's parent directory present in the created-directory set. -/
theorem c10_dirs_created (cfg : NetcdfChunker)
    (glob : String → List (String × String) → List String)
    (scanOf : String → ScanOutcome) (st0 : ScanState)
    (hf : cfg.force_scan = false)
    (hall : ∀ fp ∈ get_uri_list cfg glob,
      (st0.store.lookup (fp_json cfg fp)).isSome = true) :
    ∃ st1, scan_them_all cfg glob scanOf st0 = .ok st1 ∧
      st1.store = st0.store ∧ st1.reads = st0.reads ∧
      (∀ fp ∈ get_uri_list cfg glob,
        json_dataset_dir cfg ∈ st1.dirs ∧ parent_dir cfg fp ∈ st1.dirs) := by
  obtain ⟨st', hrun, hs, hr, _, hd⟩ :=
    scanList_skiprun cfg scanOf hf (get_uri_list cfg glob) st0 hall
  exact ⟨st', hrun, hs, hr, hd⟩

def st10 : ScanState :=
  { store := [("json/mydataset/a/1.json", "data")]
    dirs := [], reads := [], errors := [] }

/-- C10 witness: a run in which the only source is already indexed but the
index store's directory tree does not yet exist; the run is a pure skip yet
creates the directories. -/
theorem c10_witness :
    cfg0.force_scan = false ∧
    (∃ st1, scan_them_all cfg0 globA scanA st10 = .ok st1 ∧
      st1.store = st10.store ∧ st1.reads = st10.reads ∧
      (∀ fp ∈ get_uri_list cfg0 globA,
        json_dataset_dir cfg0 ∈ st1.dirs ∧ parent_dir cfg0 fp ∈ st1.dirs)) :=
  ⟨rfl, c10_dirs_created cfg0 globA scanA st10 rfl (by
    intro fp hfp
    have he : get_uri_list cfg0 globA = ["a/1.nc"] := rfl
    rw [he, List.mem_singleton] at hfp
    rw [hfp]
    rfl)⟩

end ChunkNc
